import Mathlib

/-!
Verification development for the typical_crimes_jurix batch-annotation
pipeline.  The definitions below are shallow embeddings of the phase
scripts (`analysis_p2.py`, `analysis_p3.py`, `analysis_p4.py`), the
provider clients (`gemini_api.py`, `gpt4.py`) and the bulk regeneration
utility (`bulk_regenerate_codes.py`).  Records are field bags
(association lists, mirroring Python dicts which preserve insertion
order and have unique keys); label values are either a single string or
a list of strings, mirroring the JSON values the scripts handle.
-/

/-- A JSON-ish label value: the scripts handle both a single string and a
list of strings for phase-output fields. -/
inductive JVal where
  | str : String → JVal
  | arr : List String → JVal
deriving DecidableEq

/-- A record is an ordered field bag, like a Python dict entry of the
dataset (`data[id]`). -/
abbrev Rec := List (String × JVal)

/-- The dataset: an ordered mapping id → record (`data` in the scripts). -/
abbrev Dataset := List (String × Rec)

/-- Python `record[field] = v`: replace the binding if the key exists,
otherwise append it (dict insertion-order semantics). -/
def setField : Rec → String → JVal → Rec
  | [], f, v => [(f, v)]
  | (k, w) :: r, f, v => if k = f then (k, v) :: r else (k, w) :: setField r f v

/-- analysis_p2.py lines 329-335 (and 136-138): a list-valued code is
flattened element by element, a scalar code contributes itself
(`str(c)` on a string is the string itself). -/
def flatten_codes : JVal → List String
  | .str s => [s]
  | .arr l => l

/-- Python `str.strip()` on char lists. -/
def trimChars (l : List Char) : List Char :=
  ((l.dropWhile Char.isWhitespace).reverse.dropWhile Char.isWhitespace).reverse

/-- Python `str.strip()` on strings. -/
def pyStrip (s : String) : String :=
  String.mk (trimChars s.toList)

/-- Python `str.lower()` on strings. -/
def pyLower (s : String) : String :=
  String.mk (s.toList.map Char.toLower)

/-- analysis_p2.py lines 216-226: the initial `candidate_codes`
accumulator, collected in dataset order from records that already carry
the output field, then flattened. -/
def initialCodes (field : String) (ds : Dataset) : List String :=
  (ds.filterMap (fun p => p.2.lookup field)).flatMap flatten_codes

/-- What a single provider call + parse can yield for one record inside
the retry loop of analysis_p2.py lines 277-360: an exception escaping to
the per-record handler (`err`), a parsed response without the record's
id (`miss`), or the id present with a value (`found`). -/
inductive Attempt where
  | err : Attempt
  | miss : Attempt
  | found : JVal → Attempt
deriving DecidableEq

/-- The `for attempt in range(max_retries)` loop of analysis_p2.py lines
277-360 (identically analysis_p3.py lines 219-281): `none` means an
exception escaped the loop (the record is abandoned for this run),
`some none` means every attempt parsed but the id never appeared,
`some (some v)` means the id was found with value `v` and the loop broke. -/
def retryFrom (oracle : Nat → Attempt) (attempt : Nat) : Nat → Option (Option JVal)
  | 0 => some none
  | fuel + 1 =>
    match oracle attempt with
    | .err => none
    | .found v => some (some v)
    | .miss => retryFrom oracle (attempt + 1) fuel

/-- The in-memory state of one phase run of analysis_p2.py: the dataset
processed so far (rebuilt in order), the `candidate_codes` accumulator,
the trace of (record id, accumulator at prompt-construction time) for
every selected record (line 260 builds the prompt from the current
accumulator), and the ids applied this run. -/
structure RunState where
  data : Dataset
  codes : List String
  promptTrace : List (String × List String)
  applied : List String
deriving DecidableEq

/-- One iteration of the main processing loop of analysis_p2.py lines
252-368 for a single `(id, record)` pair: skip when the output field is
present (line 253), otherwise build the prompt from the current
accumulator (line 260), run the bounded retry loop, and on success set
the field and extend the accumulator (lines 324-335). -/
def p2Step (field : String) (maxRetries : Nat) (oracle : String → Nat → Attempt)
    (st : RunState) (id : String) (r : Rec) : RunState :=
  if (r.lookup field).isSome then
    { st with data := st.data ++ [(id, r)] }
  else
    match retryFrom (oracle id) 0 maxRetries with
    | some (some v) =>
        { data := st.data ++ [(id, setField r field v)],
          codes := st.codes ++ flatten_codes v,
          promptTrace := st.promptTrace ++ [(id, st.codes)],
          applied := st.applied ++ [id] }
    | _ =>
        { st with data := st.data ++ [(id, r)],
                  promptTrace := st.promptTrace ++ [(id, st.codes)] }

/-- The main loop of analysis_p2.py iterating the dataset in order. -/
def p2RunAux (field : String) (maxRetries : Nat) (oracle : String → Nat → Attempt) :
    Dataset → RunState → RunState
  | [], st => st
  | (id, r) :: rest, st => p2RunAux field maxRetries oracle rest (p2Step field maxRetries oracle st id r)

/-- A whole phase-2 run (analysis_p2.py lines 197-368): the accumulator
starts from the codes already present in the dataset, then the loop
processes every record in order.  analysis_p3.py lines 139-285 is the
same machinery with `candidate_theme` as the output field. -/
def p2Run (field : String) (maxRetries : Nat) (oracle : String → Nat → Attempt)
    (ds : Dataset) : RunState :=
  p2RunAux field maxRetries oracle ds ⟨[], initialCodes field ds, [], []⟩

/-- Python `str()` of a label value: a string is itself; a list of strings
renders as `[.., ..]` with quoted elements (analysis_p4.py line 288 applies
`str` before `strip`). -/
def pyStr : JVal → String
  | .str s => s
  | .arr l =>
      let q := String.singleton (Char.ofNat 39)
      "[" ++ String.intercalate ", " (l.map (fun s => q ++ s ++ q)) ++ "]"

/-- The selection guard of analysis_p4.py lines 286-289: a record is
re-selected unless its `theme` field is present AND its stripped string
value belongs to the run's theme set (`continue` otherwise). -/
def p4Selected (field : String) (themeSet : List String) (r : Rec) : Bool :=
  match r.lookup field with
  | some v => !(themeSet.contains (pyStrip (pyStr v)))
  | none => true

/-- One iteration of the analysis_p4.py main loop (lines 286-333):
skip when the guard rejects the record, otherwise run the bounded retry
loop and, when the id is found, assign (possibly overwriting) the theme. -/
def p4Step (field : String) (maxRetries : Nat) (themeSet : List String)
    (oracle : String → Nat → Attempt) (st : Dataset) (id : String) (r : Rec) : Dataset :=
  if p4Selected field themeSet r then
    match retryFrom (oracle id) 0 maxRetries with
    | some (some v) => st ++ [(id, setField r field v)]
    | _ => st ++ [(id, r)]
  else st ++ [(id, r)]

/-- The analysis_p4.py phase-4 run over the dataset in order. -/
def p4Run (field : String) (maxRetries : Nat) (themeSet : List String)
    (oracle : String → Nat → Attempt) : Dataset → Dataset → Dataset
  | [], st => st
  | (id, r) :: rest, st => p4Run field maxRetries themeSet oracle rest (p4Step field maxRetries themeSet oracle st id r)

/-- analysis_p2.py lines 96-97: the provider selection read from the
environment, defaulting to "gemini" and lower-cased; no validation is
performed. -/
def p2_provider_of_env (env : Option String) : String :=
  pyLower (env.getD "gemini")

/-- analysis_p2.py lines 279-290 (identically analysis_p3.py lines
220-242): the dispatch inside `get_provider_analysis` — anything other
than "gemini" takes the OpenAI path (assuming the openai package is
importable). -/
def p2_provider_route (provider : String) : String :=
  if provider = "gemini" then "gemini" else "openai"

/-- analysis_p4.py lines 233-282: gemini, then claude, then the OpenAI
path for everything else. -/
def p4_provider_route (provider : String) : String :=
  if provider = "gemini" then "gemini"
  else if provider = "claude" then "claude"
  else "openai"

/-- analysis_p4.py lines 122-128: model resolution per provider value. -/
def p4_selected_model (provider : String) (openaiEnv anthropicEnv geminiEnv : Option String) : String :=
  if provider = "openai" then openaiEnv.getD "gpt-5"
  else if provider = "claude" then anthropicEnv.getD "claude-sonnet-4-20250514"
  else geminiEnv.getD "gemini-2.0-flash"

/-- Observable on-disk contents during `save_data_safely` (analysis_p2.py
lines 169-178, identical in analysis_p3.py and analysis_p4.py):
`open(filepath, 'w')` truncates the file to empty, then `json.dump`
streams the serialized text, so an interruption can expose the empty file
or any prefix of the new content; only the final state is the complete
new content. -/
def save_file_states (prior new : List Char) : List (List Char) :=
  prior :: (List.range (new.length + 1)).map (fun k => new.take k)

/-- The observable effects of the save-and-report block of analysis_p2.py
lines 337-353 once a label has been applied to the in-memory dataset. -/
structure SaveReport where
  save_calls : Nat
  progress_logged : Bool
  error_logged : Bool
  counted_processed : Bool
  run_continues : Bool
deriving DecidableEq

/-- analysis_p2.py lines 337-353: `save_data_safely` is called exactly
once; on success the structured progress update is emitted, on failure an
error is logged; in both cases `total_processed_this_run` increments and
the loop breaks to the next record. -/
def p2_save_and_report (save_ok : Bool) : SaveReport :=
  { save_calls := 1,
    progress_logged := save_ok,
    error_logged := !save_ok,
    counted_processed := true,
    run_continues := true }

/-- Python's string comparison on code points, as used by `sorted` on
strings: lexicographic comparison of the character sequences. -/
def charListLe : List Char → List Char → Bool
  | [], _ => true
  | _ :: _, [] => false
  | a :: as, b :: bs =>
    if a < b then true
    else if b < a then false
    else charListLe as bs

/-- `pyStrLe s t` is Python `s <= t` on strings. -/
def pyStrLe (s t : String) : Bool :=
  charListLe s.toList t.toList

/-- Insert an element into a sorted list AFTER all elements it ties with:
combined with a left fold this is a stable sort, the ordering guarantee of
Python's `sorted` and of `Counter.most_common` (CPython documents that
elements with equal counts keep the order first encountered). -/
def stableInsert (le : α → α → Bool) (a : α) : List α → List α
  | [] => [a]
  | b :: l => if le b a then b :: stableInsert le a l else a :: b :: l

/-- Stable sort by `le` (a model of Python's stable `sorted`). -/
def pySort (le : α → α → Bool) (l : List α) : List α :=
  l.foldl (fun acc a => stableInsert le a acc) []

/-- Python `dict`/`Counter` key collection: first occurrences, in order. -/
def pyDedupAux : List String → List String → List String
  | [], _ => []
  | x :: xs, seen => if x ∈ seen then pyDedupAux xs seen else x :: pyDedupAux xs (x :: seen)

def pyDedup (l : List String) : List String :=
  pyDedupAux l []

/-- analysis_p2.py lines 134-142: flatten the accumulated codes, keep the
unique ones (`set`), and sort them with Python's string order. -/
def p2_sorted_unique (initial_codes : List JVal) : List String :=
  pySort pyStrLe (pyDedup (initial_codes.flatMap flatten_codes))

/-- analysis_p2.py lines 128-143: the `codes_text` rendered into the
prompt — the sentinel for an empty vocabulary, otherwise one bullet per
sorted unique code with newlines replaced by spaces. -/
def p2_codes_text (initial_codes : List JVal) : String :=
  if initial_codes = [] then
    "This is the first batch. No initial codes have been assigned yet."
  else
    String.intercalate "\n"
      ((p2_sorted_unique initial_codes).map (fun code => ("- " ++ code).replace "\n" " "))

/-- `collections.Counter(xs)`: keys in first-encounter order with their
multiplicities. -/
def counterPairs (xs : List String) : List (String × Nat) :=
  (pyDedup xs).map (fun k => (k, xs.count k))

/-- `Counter(xs).most_common(n)`: pairs sorted by descending count; the
stable sort keeps ties in first-encounter order, which is CPython's
documented behaviour. -/
def most_common (xs : List String) (n : Nat) : List (String × Nat) :=
  (pySort (fun a b => b.2 ≤ a.2) (counterPairs xs)).take n

/-- analysis_p3.py line 82: the themes kept by the top-1000 cap
(`{t[0] for t in Counter(candidate_themes).most_common(1000)}`); the
Python code then iterates this set, whose order is unspecified, so we
model the kept collection as the list of selected keys. -/
def p3_top_themes (candidate_themes : List String) (n : Nat) : List String :=
  (most_common candidate_themes n).map Prod.fst

/-- gemini_api.py lines 115-167 specialised to a provider failing with a
rate-limit error on every call: each recursion level performs one API
call, sleeps 60 seconds, and then either gives up (`attempt >= limit`) by
raising, or recurses with `attempt+1`.  Returns the pair (number of API
calls made, number of backoff sleeps) before the final exception
propagates. -/
def get_response_rateLimited (attempt limit : Nat) : Nat × Nat :=
  if attempt ≥ limit then (1, 1)
  else
    let r := get_response_rateLimited (attempt + 1) limit
    (1 + r.1, 1 + r.2)
termination_by limit - attempt
decreasing_by omega

/-- What one backend `count_tokens` call can yield in gemini_api.py lines
40-65: a successful count, a quota/rate-limit error, or another error. -/
inductive CountOutcome where
  | ok : Nat → CountOutcome
  | quota : CountOutcome
  | err : CountOutcome
deriving DecidableEq

/-- The retry loop of gemini_api.py lines 40-68: quota errors sleep with
progressive backoff and consume an attempt; other errors consume an
attempt (sleeping 2s) except on the last attempt, which returns the
fallback estimate; exhausting the loop also returns the fallback. -/
def count_tokens_loop (backend : Nat → CountOutcome) (fb maxRetries attempt : Nat) : Nat :=
  if attempt < maxRetries then
    match backend attempt with
    | .ok n => n
    | .quota => count_tokens_loop backend fb maxRetries (attempt + 1)
    | .err =>
        if attempt < maxRetries - 1 then count_tokens_loop backend fb maxRetries (attempt + 1)
        else fb
  else fb
termination_by maxRetries - attempt
decreasing_by all_goals omega

/-- gemini_api.py lines 31-68, `count_tokens`: 0 for empty or
whitespace-only text; the character-estimate `max(1, len//4)` for texts
shorter than 20 characters; otherwise the bounded retry loop against the
backend with the same estimate as fallback.  Every exception of the
backend is caught inside the loop, so the function is total. -/
def count_tokens (text : String) (backend : Nat → CountOutcome) (maxRetries : Nat) : Nat :=
  if text = "" ∨ pyStrip text = "" then 0
  else if text.length < 20 then max 1 (text.length / 4)
  else count_tokens_loop backend (max 1 (text.length / 4)) maxRetries 0

/-- One entry of the `cases_data` given to bulk_regenerate_codes.py:
a case id and its current codes (string or list). -/
structure CaseInput where
  caseId : String
  existingCodes : JVal
deriving DecidableEq

/-- Python `needle in hay` on strings (substring test), on char lists. -/
def hasSub (sep : List Char) : List Char → Bool
  | [] => sep.isEmpty
  | c :: rest => sep.isPrefixOf (c :: rest) || hasSub sep rest

/-- bulk_regenerate_codes.py lines 194-199: when the case id is not a key
of the parsed response, scan the response for the first key containing
the case id as a substring whose value is a list. -/
def findFallback (jsonRes : List (String × JVal)) (caseId : String) : Option (List String) :=
  match jsonRes with
  | [] => none
  | (k, v) :: rest =>
    match v with
    | .arr l => if hasSub caseId.toList k.toList then some l else findFallback rest caseId
    | .str _ => findFallback rest caseId

/-- bulk_regenerate_codes.py lines 203-205: `[new_codes] if new_codes
else []` — coerce a non-list to a list using Python truthiness. -/
def coerce_list : JVal → List String
  | .arr l => l
  | .str s => if s = "" then [] else [s]

/-- bulk_regenerate_codes.py line 212: wrap a non-list in a singleton
list with no truthiness check. -/
def as_list : JVal → List String
  | .arr l => l
  | .str s => [s]

/-- bulk_regenerate_codes.py lines 180-214, for one case of a batch:
take the response value under the case id, else the substring-matched
fallback, else the case's existing codes; coerce to a list; drop codes
that are empty or whitespace-only; if nothing survives, fall back to the
existing codes as a list. -/
def extract_case_codes (jsonRes : List (String × JVal)) (c : CaseInput) : List String :=
  let new0 : JVal :=
    match jsonRes.lookup c.caseId with
    | some v => v
    | none =>
      match findFallback jsonRes c.caseId with
      | some l => .arr l
      | none => c.existingCodes
  let filtered := (coerce_list new0).filter (fun s => pyStrip s ≠ "")
  if filtered = [] then as_list c.existingCodes else filtered

/-- bulk_regenerate_codes.py lines 177-219: the `batch_updated_codes`
map produced for one batch from one parsed response — every case of the
batch receives an entry. -/
def regenerate_codes_batch (jsonRes : List (String × JVal)) (batch : List CaseInput) :
    List (String × List String) :=
  batch.map (fun c => (c.caseId, extract_case_codes jsonRes c))

/-- The backquote character, written via its code point. -/
def bq : Char := Char.ofNat 96

/-- The three-backquote markdown fence. -/
def fence : List Char := [bq, bq, bq]

/-- The "```json" opening fence. -/
def fenceJson : List Char := fence ++ ['j', 's', 'o', 'n']

/-- Python `s.split(sep, 1)[1]`: everything after the first occurrence of
`sep` (callers guard on the occurrence existing). -/
def afterFirst (sep : List Char) : List Char → List Char
  | [] => []
  | c :: rest =>
    if sep.isPrefixOf (c :: rest) then (c :: rest).drop sep.length
    else afterFirst sep rest

/-- Python `s.split(sep, 1)[0]`: everything before the first occurrence of
`sep` (the whole string when `sep` does not occur). -/
def beforeFirst (sep : List Char) : List Char → List Char
  | [] => []
  | c :: rest =>
    if sep.isPrefixOf (c :: rest) then []
    else c :: beforeFirst sep rest

/-- gemini_api.py lines 175-186 (identically gpt4.py lines 87-97): strip
the response, then cut out the body of a single leading markdown fence —
`json`-tagged if present, plain otherwise — taking the text between the
opening fence and the FIRST following fence marker. -/
def response_body (content : List Char) : List Char :=
  let plain := trimChars content
  if fenceJson.isPrefixOf plain && hasSub fence (plain.drop 6) then
    trimChars (beforeFirst fence (afterFirst fenceJson plain))
  else if fence.isPrefixOf plain && hasSub fence (plain.drop 3) then
    trimChars (beforeFirst fence (afterFirst fence plain))
  else plain

def skipWs (l : List Char) : List Char :=
  l.dropWhile Char.isWhitespace

/-- Body of a JSON string literal after the opening quote (escape
sequences unsupported in this model): the content and the rest after the
closing quote. -/
def parseStringBody : List Char → Option (List Char × List Char)
  | [] => none
  | c :: rest =>
    if c = '"' then some ([], rest)
    else if c = '\\' then none
    else match parseStringBody rest with
      | some (s, r) => some (c :: s, r)
      | none => none

/-- A JSON string literal. -/
def parseStrLit (l : List Char) : Option (String × List Char) :=
  match l with
  | '"' :: rest => (parseStringBody rest).map (fun p => (String.mk p.1, p.2))
  | _ => none

/-- Items of a JSON array of strings, after the opening bracket. -/
def parseArrItems (fuel : Nat) (l : List Char) : Option (List String × List Char) :=
  match fuel with
  | 0 => none
  | f + 1 =>
    match parseStrLit (skipWs l) with
    | none => none
    | some (s, r) =>
      match skipWs r with
      | ',' :: r2 => (parseArrItems f r2).map (fun p => (s :: p.1, p.2))
      | ']' :: r2 => some ([s], r2)
      | _ => none

/-- A JSON value of the fragment: a string or an array of strings. -/
def parseVal (fuel : Nat) (l : List Char) : Option (JVal × List Char) :=
  match skipWs l with
  | '[' :: r =>
    match skipWs r with
    | ']' :: r2 => some (.arr [], r2)
    | r2 => (parseArrItems fuel r2).map (fun p => (.arr p.1, p.2))
  | l2 => (parseStrLit l2).map (fun p => (.str p.1, p.2))

/-- Members of a JSON object of the fragment, after the opening brace. -/
def parseMembers (fuel : Nat) (l : List Char) : Option (List (String × JVal) × List Char) :=
  match fuel with
  | 0 => none
  | f + 1 =>
    match parseStrLit (skipWs l) with
    | none => none
    | some (k, r) =>
      match skipWs r with
      | ':' :: r2 =>
        match parseVal f r2 with
        | none => none
        | some (v, r3) =>
          match skipWs r3 with
          | ',' :: r4 => (parseMembers f r4).map (fun p => ((k, v) :: p.1, p.2))
          | c :: r4 => if c = Char.ofNat 125 then some ([(k, v)], r4) else none
          | [] => none
      | _ => none

/-- A model of Python `json.loads` restricted to flat objects whose
values are strings or arrays of strings, with no escape sequences: the
fragment exchanged by these scripts.  Fails (`none`) exactly where
`json.loads` raises `JSONDecodeError` on this fragment. -/
def json_loads (l : List Char) : Option (List (String × JVal)) :=
  match skipWs l with
  | c :: r =>
    if c = Char.ofNat 123 then
      match skipWs r with
      | d :: r2 =>
        if d = Char.ofNat 125 then
          if skipWs r2 = [] then some [] else none
        else
          match parseMembers (l.length + 1) (d :: r2) with
          | some (m, rest) => if skipWs rest = [] then some m else none
          | none => none
      | [] => none
    else none
  | [] => none

/-- gemini_api.py lines 170-195 `response_to_json`: extract the fenced
body and decode it, returning the empty map when decoding fails. -/
def response_to_json_model (content : List Char) : List (String × JVal) :=
  (json_loads (response_body content)).getD []

/-- The outcome of the phase-2 loop for a single record: unchanged when
skipped, unchanged when the retry loop fails, the field set when found. -/
def p2RecOut (field : String) (maxRetries : Nat) (oracle : String → Nat → Attempt)
    (id : String) (r : Rec) : Rec :=
  if (r.lookup field).isSome then r
  else match retryFrom (oracle id) 0 maxRetries with
    | some (some v) => setField r field v
    | _ => r

/-- Whether the phase-2 loop selects a record (builds a prompt for it):
exactly when the output field is absent. -/
def p2SelectedB (field : String) (p : String × Rec) : Bool :=
  (p.2.lookup field).isNone

/-- Whether the phase-2 loop applies a label to a record this run. -/
def p2AppliedB (field : String) (maxRetries : Nat) (oracle : String → Nat → Attempt)
    (p : String × Rec) : Bool :=
  (p.2.lookup field).isNone &&
    (match retryFrom (oracle p.1) 0 maxRetries with
     | some (some _) => true
     | _ => false)

/-- The outcome of the phase-4 loop for a single record: unchanged when
the guard skips it or the retry loop fails, the theme assigned
(overwriting any previous value) when found. -/
def p4RecOut (field : String) (maxRetries : Nat) (themeSet : List String)
    (oracle : String → Nat → Attempt) (id : String) (r : Rec) : Rec :=
  if p4Selected field themeSet r then
    match retryFrom (oracle id) 0 maxRetries with
    | some (some v) => setField r field v
    | _ => r
  else r

/-!  ## Theorems  -/

theorem lookup_beq_false {g k : String} (h : ¬g = k) : (g == k) = false :=
  beq_eq_false_iff_ne.mpr h

theorem lookup_setField (r : Rec) (f g : String) (v : JVal) :
    (setField r f v).lookup g = if g = f then some v else r.lookup g := by
  induction r with
  | nil =>
    by_cases h : g = f
    · simp [setField, List.lookup, h]
    · simp [setField, List.lookup, h, lookup_beq_false h]
  | cons p r ih =>
    obtain ⟨k, w⟩ := p
    by_cases hk : k = f
    · subst hk
      by_cases h : g = k
      · simp [setField, List.lookup, h]
      · simp [setField, List.lookup, h, lookup_beq_false h]
    · by_cases h : g = k
      · subst h
        simp [setField, List.lookup, hk, lookup_beq_false (Ne.symm hk), hk]
      · simp [setField, List.lookup, lookup_beq_false hk, lookup_beq_false h, hk, h, ih]

theorem p2Step_data (field : String) (m : Nat) (oracle : String → Nat → Attempt)
    (st : RunState) (id : String) (r : Rec) :
    (p2Step field m oracle st id r).data = st.data ++ [(id, p2RecOut field m oracle id r)] := by
  by_cases h : (r.lookup field).isSome
  · simp [p2Step, p2RecOut, h]
  · simp only [p2Step, p2RecOut, h, if_neg, if_false, Bool.false_eq_true]
    cases hret : retryFrom (oracle id) 0 m with
    | none => simp
    | some o => cases o <;> simp

theorem p2RunAux_data (field : String) (m : Nat) (oracle : String → Nat → Attempt) :
    ∀ (l : Dataset) (st : RunState),
    (p2RunAux field m oracle l st).data
      = st.data ++ l.map (fun p => (p.1, p2RecOut field m oracle p.1 p.2)) := by
  intro l
  induction l with
  | nil => intro st; simp [p2RunAux]
  | cons p rest ih =>
    intro st
    obtain ⟨id, r⟩ := p
    simp only [p2RunAux, List.map_cons]
    rw [ih, p2Step_data]
    simp

theorem p2Step_applied (field : String) (m : Nat) (oracle : String → Nat → Attempt)
    (st : RunState) (id : String) (r : Rec) :
    (p2Step field m oracle st id r).applied
      = st.applied ++ (if p2AppliedB field m oracle (id, r) then [id] else []) := by
  by_cases h : (r.lookup field).isSome
  · rw [Option.isSome_iff_exists] at h
    obtain ⟨v, hv⟩ := h
    simp [p2Step, p2AppliedB, hv]
  · simp only [p2Step, h, if_neg, Bool.false_eq_true, if_false]
    cases hret : retryFrom (oracle id) 0 m with
    | none =>
      simp [p2AppliedB, hret, Option.not_isSome_iff_eq_none.mp h]
    | some o =>
      cases o with
      | none => simp [p2AppliedB, hret, Option.not_isSome_iff_eq_none.mp h]
      | some v => simp [p2AppliedB, hret, Option.not_isSome_iff_eq_none.mp h]

theorem p2RunAux_applied (field : String) (m : Nat) (oracle : String → Nat → Attempt) :
    ∀ (l : Dataset) (st : RunState),
    (p2RunAux field m oracle l st).applied
      = st.applied ++ (l.filter (p2AppliedB field m oracle)).map Prod.fst := by
  intro l
  induction l with
  | nil => intro st; simp [p2RunAux]
  | cons p rest ih =>
    intro st
    obtain ⟨id, r⟩ := p
    simp only [p2RunAux]
    rw [ih, p2Step_applied]
    by_cases h : p2AppliedB field m oracle (id, r) <;> simp [h]

theorem p2Step_traceIds (field : String) (m : Nat) (oracle : String → Nat → Attempt)
    (st : RunState) (id : String) (r : Rec) :
    (p2Step field m oracle st id r).promptTrace.map Prod.fst
      = st.promptTrace.map Prod.fst ++ (if p2SelectedB field (id, r) then [id] else []) := by
  by_cases h : (r.lookup field).isSome
  · rw [Option.isSome_iff_exists] at h
    obtain ⟨v, hv⟩ := h
    simp [p2Step, p2SelectedB, hv]
  · simp only [p2Step, h, if_neg, Bool.false_eq_true, if_false]
    cases hret : retryFrom (oracle id) 0 m with
    | none => simp [p2SelectedB, Option.not_isSome_iff_eq_none.mp h]
    | some o => cases o <;> simp [p2SelectedB, Option.not_isSome_iff_eq_none.mp h]

theorem p2RunAux_traceIds (field : String) (m : Nat) (oracle : String → Nat → Attempt) :
    ∀ (l : Dataset) (st : RunState),
    (p2RunAux field m oracle l st).promptTrace.map Prod.fst
      = st.promptTrace.map Prod.fst ++ (l.filter (p2SelectedB field)).map Prod.fst := by
  intro l
  induction l with
  | nil => intro st; simp [p2RunAux]
  | cons p rest ih =>
    intro st
    obtain ⟨id, r⟩ := p
    simp only [p2RunAux]
    rw [ih, p2Step_traceIds]
    by_cases h : p2SelectedB field (id, r) <;> simp [h]

theorem rec_eq_of_nodup_keys {ds : Dataset} (h : (ds.map Prod.fst).Nodup)
    {id : String} {a b : Rec} (ha : (id, a) ∈ ds) (hb : (id, b) ∈ ds) : a = b := by
  induction ds with
  | nil => cases ha
  | cons p rest ih =>
    simp only [List.map_cons, List.nodup_cons] at h
    rcases List.mem_cons.mp ha with ha1 | ha1
    · rcases List.mem_cons.mp hb with hb1 | hb1
      · rw [← ha1] at hb1
        exact (congrArg Prod.snd hb1).symm
      · exfalso
        apply h.1
        rw [← ha1]
        exact List.mem_map.mpr ⟨(id, b), hb1, rfl⟩
    · rcases List.mem_cons.mp hb with hb1 | hb1
      · exfalso
        apply h.1
        rw [← hb1]
        exact List.mem_map.mpr ⟨(id, a), ha1, rfl⟩
      · exact ih h.2 ha1 hb1

/-- C1: in a phase run, a record is selected (a prompt is built for it) iff
its phase-output field is absent; every record applied this run lacked the
field at the start of the run; and over a dataset in which every record
already carries the field, the run applies zero records and leaves the
dataset unchanged. -/
theorem claim1_selection_iff_field_absent
    (field : String) (m : Nat) (oracle : String → Nat → Attempt) (ds : Dataset)
    (huniq : (ds.map Prod.fst).Nodup) :
    (∀ id r, (id, r) ∈ ds →
        (id ∈ (p2Run field m oracle ds).promptTrace.map Prod.fst ↔ r.lookup field = none))
    ∧ (∀ id ∈ (p2Run field m oracle ds).applied,
        ∃ r, (id, r) ∈ ds ∧ r.lookup field = none)
    ∧ ((∀ p ∈ ds, (p.2.lookup field).isSome) →
        (p2Run field m oracle ds).applied = [] ∧ (p2Run field m oracle ds).data = ds) := by
  unfold p2Run
  rw [p2RunAux_traceIds, p2RunAux_applied, p2RunAux_data]
  refine ⟨?_, ?_, ?_⟩
  · intro id r hmem
    simp only [List.nil_append, List.map_nil]
    constructor
    · intro hin
      obtain ⟨p, hp, hfst⟩ := List.mem_map.mp hin
      obtain ⟨hpin, hpsel⟩ := List.mem_filter.mp hp
      have : p.2 = r := by
        have : p = (id, p.2) := by rw [← hfst]
        rw [this] at hpin
        exact rec_eq_of_nodup_keys huniq hpin hmem
      simp only [p2SelectedB, Option.isNone_iff_eq_none] at hpsel
      rw [← this]
      exact hpsel
    · intro hnone
      refine List.mem_map.mpr ⟨(id, r), List.mem_filter.mpr ⟨hmem, ?_⟩, rfl⟩
      simp [p2SelectedB, hnone]
  · intro id hin
    simp only [List.nil_append] at hin
    obtain ⟨p, hp, hfst⟩ := List.mem_map.mp hin
    obtain ⟨hpin, hpapp⟩ := List.mem_filter.mp hp
    refine ⟨p.2, ?_, ?_⟩
    · rw [← hfst]; exact hpin
    · simp only [p2AppliedB, Bool.and_eq_true, Option.isNone_iff_eq_none] at hpapp
      exact hpapp.1
  · intro hall
    constructor
    · simp only [List.nil_append, List.map_eq_nil_iff, List.filter_eq_nil_iff]
      intro p hp
      obtain ⟨v, hv⟩ := Option.isSome_iff_exists.mp (hall p hp)
      simp [p2AppliedB, hv]
    · simp only [List.nil_append]
      have hid : ∀ p ∈ ds, (fun p : String × Rec => (p.1, p2RecOut field m oracle p.1 p.2)) p = p := by
        intro p hp
        have := hall p hp
        simp [p2RecOut, this]
      rw [List.map_congr_left hid]
      exact List.map_id ds

/-- Witness for C1 at a concrete dataset in which both records already
carry the output field: the second run applies nothing and changes
nothing. -/
theorem claim1_witness :
    (p2Run "initial_code_0" 3 (fun _ _ => Attempt.miss)
      [("A", [("initial_code_0", JVal.str "c")]), ("B", [("initial_code_0", JVal.str "d")])]).applied = []
    ∧ (p2Run "initial_code_0" 3 (fun _ _ => Attempt.miss)
      [("A", [("initial_code_0", JVal.str "c")]), ("B", [("initial_code_0", JVal.str "d")])]).data
      = [("A", [("initial_code_0", JVal.str "c")]), ("B", [("initial_code_0", JVal.str "d")])] :=
  (claim1_selection_iff_field_absent "initial_code_0" 3 (fun _ _ => Attempt.miss)
    [("A", [("initial_code_0", JVal.str "c")]), ("B", [("initial_code_0", JVal.str "d")])]
    (by decide)).2.2 (by decide)

theorem p2RecOut_preserves (field : String) (m : Nat) (oracle : String → Nat → Attempt)
    (id : String) (r : Rec) (g : String) (v : JVal) (h : r.lookup g = some v) :
    (p2RecOut field m oracle id r).lookup g = some v := by
  unfold p2RecOut
  by_cases hs : (r.lookup field).isSome
  · simp [hs, h]
  · cases hret : retryFrom (oracle id) 0 m with
    | none => simp [hs, hret, h]
    | some o =>
      cases o with
      | none => simp [hs, hret, h]
      | some v2 =>
        have hg : g ≠ field := by
          intro he
          rw [he, Option.not_isSome_iff_eq_none.mp hs] at h
          cases h
        simp only [hs, hret, Bool.false_eq_true, if_false]
        rw [lookup_setField]
        simp [hg, h]

theorem p4Step_data (field : String) (m : Nat) (themeSet : List String)
    (oracle : String → Nat → Attempt) (st : Dataset) (id : String) (r : Rec) :
    p4Step field m themeSet oracle st id r
      = st ++ [(id, p4RecOut field m themeSet oracle id r)] := by
  by_cases h : p4Selected field themeSet r
  · simp only [p4Step, p4RecOut, h, if_true]
    cases hret : retryFrom (oracle id) 0 m with
    | none => simp
    | some o => cases o <;> simp
  · simp [p4Step, p4RecOut, h]

theorem p4Run_data (field : String) (m : Nat) (themeSet : List String)
    (oracle : String → Nat → Attempt) :
    ∀ (l : Dataset) (st : Dataset),
    p4Run field m themeSet oracle l st
      = st ++ l.map (fun p => (p.1, p4RecOut field m themeSet oracle p.1 p.2)) := by
  intro l
  induction l with
  | nil => intro st; simp [p4Run]
  | cons p rest ih =>
    intro st
    obtain ⟨id, r⟩ := p
    simp only [p4Run, List.map_cons]
    rw [ih, p4Step_data]
    simp

theorem p4RecOut_key_mono (field : String) (m : Nat) (themeSet : List String)
    (oracle : String → Nat → Attempt) (id : String) (r : Rec) (g : String) (v : JVal)
    (h : r.lookup g = some v) :
    ((p4RecOut field m themeSet oracle id r).lookup g).isSome
    ∧ (g ≠ field → (p4RecOut field m themeSet oracle id r).lookup g = some v) := by
  unfold p4RecOut
  by_cases hsel : p4Selected field themeSet r
  · simp only [hsel, if_true]
    cases hret : retryFrom (oracle id) 0 m with
    | none => simp [h]
    | some o =>
      cases o with
      | none => simp [h]
      | some v2 =>
        rw [lookup_setField]
        by_cases hg : g = field
        · simp [hg]
        · simp [hg, h]
  · simp [hsel, h]

theorem p4RecOut_skip (field : String) (m : Nat) (themeSet : List String)
    (oracle : String → Nat → Attempt) (id : String) (r : Rec)
    (h : p4Selected field themeSet r = false) :
    p4RecOut field m themeSet oracle id r = r := by
  simp [p4RecOut, h]

theorem lookup_map_keyed (f : String → Rec → Rec) (id : String) :
    ∀ l : Dataset,
    (l.map (fun p => (p.1, f p.1 p.2))).lookup id = (l.lookup id).map (f id) := by
  intro l
  induction l with
  | nil => simp
  | cons p rest ih =>
    obtain ⟨k, r⟩ := p
    by_cases h : id = k
    · subst h
      simp [List.lookup]
    · simp [List.lookup, lookup_beq_false h, ih]

/-- C6 counterexample: a phase-4 loop step OVERWRITES an existing `theme`
output field — a record holding theme "x" is re-selected when "x" is not
in the run's theme set, and its theme becomes "y". -/
theorem claim6_counterexample :
    (p4Run "theme" 3 ["y"] (fun _ _ => Attempt.found (JVal.str "y"))
      [("A", [("theme", JVal.str "x")])] []).lookup "A" = some [("theme", JVal.str "y")]
    ∧ ([("theme", JVal.str "x")] : Rec).lookup "theme" = some (JVal.str "x")
    ∧ JVal.str "x" ≠ JVal.str "y" := by
  refine ⟨by decide, by decide, by decide⟩

/-- C6 amended: in phases 2 and 3 the loop never changes or removes an
existing field (in particular the output field is immutable once written);
in phase 4 records never lose fields and no field other than the theme
output field is changed, but the theme itself is only guaranteed to
survive when its stripped value belongs to the run's theme set, in which
case the record is skipped unchanged. -/
theorem claim6_amended (field : String) (m : Nat) (oracle : String → Nat → Attempt)
    (themeSet : List String) (ds : Dataset) (id : String) (r : Rec)
    (hmem : ds.lookup id = some r) :
    (∀ g v, r.lookup g = some v →
        ∃ r2, (p2Run field m oracle ds).data.lookup id = some r2 ∧ r2.lookup g = some v)
    ∧ (∀ g v, r.lookup g = some v →
        ∃ r2, (p4Run field m themeSet oracle ds []).lookup id = some r2
          ∧ (r2.lookup g).isSome ∧ (g ≠ field → r2.lookup g = some v))
    ∧ (p4Selected field themeSet r = false →
        (p4Run field m themeSet oracle ds []).lookup id = some r) := by
  have hp2 : (p2Run field m oracle ds).data.lookup id
      = some (p2RecOut field m oracle id r) := by
    unfold p2Run
    rw [p2RunAux_data]
    simp only [List.nil_append]
    rw [lookup_map_keyed, hmem]
    rfl
  have hp4 : (p4Run field m themeSet oracle ds []).lookup id
      = some (p4RecOut field m themeSet oracle id r) := by
    rw [p4Run_data]
    simp only [List.nil_append]
    rw [lookup_map_keyed, hmem]
    rfl
  refine ⟨?_, ?_, ?_⟩
  · intro g v hv
    exact ⟨p2RecOut field m oracle id r, hp2, p2RecOut_preserves field m oracle id r g v hv⟩
  · intro g v hv
    obtain ⟨h1, h2⟩ := p4RecOut_key_mono field m themeSet oracle id r g v hv
    exact ⟨p4RecOut field m themeSet oracle id r, hp4, h1, h2⟩
  · intro hskip
    rw [hp4, p4RecOut_skip field m themeSet oracle id r hskip]

/-- Witness for C6 amended at a concrete dataset: an existing field value
survives a phase-2 run, and a record whose theme is in the theme set is
untouched by a phase-4 run. -/
theorem claim6_witness :
    (∃ r2, (p2Run "initial_code_0" 3 (fun _ _ => Attempt.found (JVal.str "c"))
        [("A", [("body", JVal.str "t")])]).data.lookup "A" = some r2
      ∧ r2.lookup "body" = some (JVal.str "t"))
    ∧ (p4Run "theme" 3 ["x"] (fun _ _ => Attempt.found (JVal.str "y"))
        [("A", [("theme", JVal.str "x")])] []).lookup "A" = some [("theme", JVal.str "x")] := by
  constructor
  · exact (claim6_amended "initial_code_0" 3 (fun _ _ => Attempt.found (JVal.str "c"))
      [] [("A", [("body", JVal.str "t")])] "A" [("body", JVal.str "t")]
      (by decide)).1 "body" (JVal.str "t") (by decide)
  · exact (claim6_amended "theme" 3 (fun _ _ => Attempt.found (JVal.str "y"))
      ["x"] [("A", [("theme", JVal.str "x")])] "A" [("theme", JVal.str "x")]
      (by decide)).2.2 (by decide)

theorem p2RunAux_trace_mono (field : String) (m : Nat) (oracle : String → Nat → Attempt) :
    ∀ (l : Dataset) (st : RunState),
    List.Pairwise (fun a b : String × List String => ∀ c ∈ a.2, c ∈ b.2) st.promptTrace →
    (∀ e ∈ st.promptTrace, ∀ c ∈ e.2, c ∈ st.codes) →
    List.Pairwise (fun a b : String × List String => ∀ c ∈ a.2, c ∈ b.2)
        (p2RunAux field m oracle l st).promptTrace
    ∧ (∀ e ∈ (p2RunAux field m oracle l st).promptTrace, ∀ c ∈ e.2,
        c ∈ (p2RunAux field m oracle l st).codes) := by
  intro l
  induction l with
  | nil => intro st h1 h2; exact ⟨h1, h2⟩
  | cons p rest ih =>
    intro st h1 h2
    obtain ⟨id, r⟩ := p
    simp only [p2RunAux]
    apply ih
    all_goals {
      by_cases hs : (r.lookup field).isSome
      · simp only [p2Step, hs, if_true]
        first
        | exact h1
        | exact h2
      · simp only [p2Step, hs, Bool.false_eq_true, if_false]
        cases hret : retryFrom (oracle id) 0 m with
        | none =>
          simp only []
          first
          | { refine List.pairwise_append.mpr ⟨h1, List.pairwise_singleton .., ?_⟩
              intro a ha b hb
              simp only [List.mem_singleton] at hb
              subst hb
              intro c hc
              exact h2 a ha c hc }
          | { intro e he c hc
              rcases List.mem_append.mp he with he1 | he1
              · exact h2 e he1 c hc
              · simp only [List.mem_singleton] at he1
                subst he1
                exact hc }
        | some o =>
          cases o with
          | none =>
            simp only []
            first
            | { refine List.pairwise_append.mpr ⟨h1, List.pairwise_singleton .., ?_⟩
                intro a ha b hb
                simp only [List.mem_singleton] at hb
                subst hb
                intro c hc
                exact h2 a ha c hc }
            | { intro e he c hc
                rcases List.mem_append.mp he with he1 | he1
                · exact h2 e he1 c hc
                · simp only [List.mem_singleton] at he1
                  subst he1
                  exact hc }
          | some v =>
            simp only []
            first
            | { refine List.pairwise_append.mpr ⟨h1, List.pairwise_singleton .., ?_⟩
                intro a ha b hb
                simp only [List.mem_singleton] at hb
                subst hb
                intro c hc
                exact h2 a ha c hc }
            | { intro e he c hc
                rcases List.mem_append.mp he with he1 | he1
                · exact List.mem_append_left _ (h2 e he1 c hc)
                · simp only [List.mem_singleton] at he1
                  subst he1
                  exact List.mem_append_left _ hc }
    }

/-- C9: within a single run, the vocabulary (the `candidate_codes`
accumulator) used to build the prompt of a record processed earlier is
contained in the vocabulary used for every later record, and every
prompt's vocabulary is contained in the final accumulator — the
accumulator never shrinks. -/
theorem claim9_vocab_monotone (field : String) (m : Nat)
    (oracle : String → Nat → Attempt) (ds : Dataset) :
    List.Pairwise (fun a b : String × List String => ∀ c ∈ a.2, c ∈ b.2)
        (p2Run field m oracle ds).promptTrace
    ∧ (∀ e ∈ (p2Run field m oracle ds).promptTrace, ∀ c ∈ e.2,
        c ∈ (p2Run field m oracle ds).codes) := by
  unfold p2Run
  exact p2RunAux_trace_mono field m oracle ds _ (by simp) (by simp)

theorem get_response_rateLimited_of_sub : ∀ (k limit attempt : Nat), limit - attempt = k →
    get_response_rateLimited attempt limit = (k + 1, k + 1) := by
  intro k
  induction k with
  | zero =>
    intro limit a h
    have hge : a ≥ limit := by omega
    unfold get_response_rateLimited
    simp [hge]
  | succ n ihn =>
    intro limit a h
    have hlt : ¬a ≥ limit := by omega
    unfold get_response_rateLimited
    simp only [hlt, if_false, ge_iff_le, Bool.false_eq_true]
    rw [ihn limit (a + 1) (by omega)]
    simp [Nat.add_comm]

theorem get_response_rateLimited_eq (attempt limit : Nat) :
    get_response_rateLimited attempt limit = (limit - attempt + 1, limit - attempt + 1) :=
  get_response_rateLimited_of_sub (limit - attempt) limit attempt rfl

/-- C4 counterexample: with the default limit 5 of gemini_api.py
`get_response`, a provider that always rate-limits causes 6 API calls
(not the 3 the claim states) and 6 backoff sleeps — in particular the
sleep IS invoked after the final attempt, since the code sleeps before
checking whether the attempt bound is exhausted. -/
theorem claim4_counterexample :
    (get_response_rateLimited 0 5).1 = 6 ∧ ¬(get_response_rateLimited 0 5).1 = 3
    ∧ (get_response_rateLimited 0 5).2 = 6 ∧ ¬(get_response_rateLimited 0 5).2 = 2 := by
  rw [get_response_rateLimited_eq]
  refine ⟨rfl, by decide, rfl, by decide⟩

/-- C4 amended: a provider failing with a rate-limit error on every call
causes exactly `limit + 1` API attempts (6 at the default limit 5), with a
60-second backoff sleep after EVERY failed attempt including the final
one, before the exception propagates; the phase loop catches the
exception, leaves the record without its output field, and continues the
run with the remaining records. -/
theorem claim4_rate_limit_behavior :
    (∀ limit : Nat, (get_response_rateLimited 0 limit).1 = limit + 1
        ∧ (get_response_rateLimited 0 limit).2 = (get_response_rateLimited 0 limit).1)
    ∧ (∀ (field : String) (m : Nat) (oracle : String → Nat → Attempt)
        (st : RunState) (id : String) (r : Rec) (rest : Dataset),
        0 < m → r.lookup field = none → oracle id 0 = Attempt.err →
        p2RunAux field m oracle ((id, r) :: rest) st
          = p2RunAux field m oracle rest
              { st with data := st.data ++ [(id, r)],
                        promptTrace := st.promptTrace ++ [(id, st.codes)] }) := by
  constructor
  · intro limit
    rw [get_response_rateLimited_eq]
    simp
  · intro field m oracle st id r rest hm hf herr
    have hret : retryFrom (oracle id) 0 m = none := by
      cases m with
      | zero => omega
      | succ n => simp [retryFrom, herr]
    simp only [p2RunAux, p2Step, hf, Option.isSome_none, Bool.false_eq_true, if_false, hret]

/-- Witness for C4 amended: at the default limit 5 there are 6 calls and 6
sleeps, and a concrete pending record whose provider raises is left
unchanged while the run proceeds to the rest of the dataset. -/
theorem claim4_witness :
    ((get_response_rateLimited 0 5).1 = 5 + 1)
    ∧ p2RunAux "f" 3 (fun _ _ => Attempt.err) [("A", [("body", JVal.str "t")])] ⟨[], [], [], []⟩
        = p2RunAux "f" 3 (fun _ _ => Attempt.err) []
            ⟨[("A", [("body", JVal.str "t")])], [], [("A", [])], []⟩ := by
  constructor
  · exact (claim4_rate_limit_behavior.1 5).1
  · have h := claim4_rate_limit_behavior.2 "f" 3 (fun _ _ => Attempt.err)
      ⟨[], [], [], []⟩ "A" [("body", JVal.str "t")] [] (by decide) (by decide) rfl
    exact h

theorem count_tokens_loop_cases_aux (backend : Nat → CountOutcome) (fb : Nat) :
    ∀ (k m a : Nat), m - a ≤ k →
    count_tokens_loop backend fb m a = fb
      ∨ ∃ a2 n, a2 < m ∧ backend a2 = .ok n ∧ count_tokens_loop backend fb m a = n := by
  intro k
  induction k with
  | zero =>
    intro m a h
    have hlt : ¬a < m := by omega
    unfold count_tokens_loop
    simp [hlt]
  | succ j ih =>
    intro m a h
    unfold count_tokens_loop
    by_cases hlt : a < m
    · simp only [hlt, if_true]
      cases hb : backend a with
      | ok v =>
        right
        exact ⟨a, v, hlt, hb, rfl⟩
      | quota =>
        exact ih m (a + 1) (by omega)
      | err =>
        by_cases h2 : a < m - 1
        · simp only [h2, if_true]
          exact ih m (a + 1) (by omega)
        · simp [h2]
    · simp [hlt]

theorem count_tokens_loop_cases (backend : Nat → CountOutcome) (fb m a : Nat) :
    count_tokens_loop backend fb m a = fb
      ∨ ∃ a2 n, a2 < m ∧ backend a2 = .ok n ∧ count_tokens_loop backend fb m a = n :=
  count_tokens_loop_cases_aux backend fb (m - a) m a le_rfl

/-- C10: `count_tokens` is total and never signals an error to its caller:
it returns 0 exactly for empty or whitespace-only text; for shorter than
20 characters it returns the positive estimate `max 1 (len / 4)`; for any
other text it returns either the count of some successful backend attempt
within the retry bound or the same fallback estimate; and whenever the
backend's successful counts are positive, the result for non-blank text
is positive. -/
theorem claim10_count_tokens_total (text : String) (backend : Nat → CountOutcome) (m : Nat) :
    ((text = "" ∨ pyStrip text = "") → count_tokens text backend m = 0)
    ∧ (¬(text = "" ∨ pyStrip text = "") → text.length < 20 →
        count_tokens text backend m = max 1 (text.length / 4)
          ∧ 0 < count_tokens text backend m)
    ∧ (¬(text = "" ∨ pyStrip text = "") → ¬text.length < 20 →
        (count_tokens text backend m = max 1 (text.length / 4)
          ∨ ∃ a n, a < m ∧ backend a = .ok n ∧ count_tokens text backend m = n))
    ∧ ((∀ a n, backend a = .ok n → 0 < n) → ¬(text = "" ∨ pyStrip text = "") →
        0 < count_tokens text backend m) := by
  refine ⟨?_, ?_, ?_, ?_⟩
  · intro h
    simp [count_tokens, h]
  · intro h hshort
    simp only [count_tokens, h, if_false, hshort, if_true]
    exact ⟨trivial, lt_of_lt_of_le one_pos (le_max_left _ _)⟩
  · intro h hlong
    simp only [count_tokens, h, if_false, hlong]
    exact count_tokens_loop_cases backend (max 1 (text.length / 4)) m 0
  · intro hpos h
    by_cases hshort : text.length < 20
    · simp only [count_tokens, h, if_false, hshort, if_true]
      exact lt_of_lt_of_le one_pos (le_max_left _ _)
    · simp only [count_tokens, h, if_false, hshort]
      rcases count_tokens_loop_cases backend (max 1 (text.length / 4)) m 0 with h1 | ⟨a, n, _, hb, heq⟩
      · rw [h1]; exact lt_of_lt_of_le one_pos (le_max_left _ _)
      · rw [heq]; exact hpos a n hb

/-- Witness for C10: a whitespace-only text counts 0; a 24-character text
against an always-rate-limited backend yields the positive fallback
estimate 6. -/
theorem claim10_witness :
    count_tokens "   " (fun _ => CountOutcome.quota) 3 = 0
    ∧ count_tokens "aaaaaaaaaaaaaaaaaaaaaaaa" (fun _ => CountOutcome.quota) 3
        = max 1 ((24 : Nat) / 4)
    ∧ 0 < count_tokens "aaaaaaaaaaaaaaaaaaaaaaaa" (fun _ => CountOutcome.quota) 3 := by
  refine ⟨?_, ?_, ?_⟩
  · exact (claim10_count_tokens_total "   " (fun _ => CountOutcome.quota) 3).1 (by right; decide)
  · have h := (claim10_count_tokens_total "aaaaaaaaaaaaaaaaaaaaaaaa"
      (fun _ => CountOutcome.quota) 3).2.2.1 (by decide) (by decide)
    rcases h with h1 | ⟨a, n, _, hb, _⟩
    · exact h1
    · exfalso; simp at hb
  · exact (claim10_count_tokens_total "aaaaaaaaaaaaaaaaaaaaaaaa"
      (fun _ => CountOutcome.quota) 3).2.2.2 (by intro a n hb; simp at hb) (by decide)

/-- C5 counterexample: an unknown provider selection value ("anthropic"
for phase 2, "mistral" for phase 4) does NOT fail at startup — the
environment read accepts any value and the dispatch silently routes every
non-"gemini" (non-"claude" for phase 4) value to the OpenAI path. -/
theorem claim5_counterexample :
    p2_provider_of_env (some "ANTHROPIC") = "anthropic"
    ∧ p2_provider_route "anthropic" = "openai"
    ∧ "anthropic" ≠ "gemini" ∧ "anthropic" ≠ "openai"
    ∧ p4_provider_route "mistral" = "openai"
    ∧ "mistral" ≠ "gemini" ∧ "mistral" ≠ "claude" ∧ "mistral" ≠ "openai" := by
  decide

/-- C5 amended: an unknown provider selection value is never rejected:
the phase-2/3 dispatch sends every value other than "gemini" down the
OpenAI path, and the phase-4 dispatch sends every value that is neither
"gemini" nor "claude" down the OpenAI path (with the model defaulting to
"gpt-5"); no startup check fails. -/
theorem claim5_amended (provider : String) (h1 : provider ≠ "gemini") :
    p2_provider_route provider = "openai"
    ∧ (provider ≠ "claude" → p4_provider_route provider = "openai"
        ∧ p4_selected_model provider none none none
            = (if provider = "openai" then "gpt-5" else "gemini-2.0-flash")) := by
  refine ⟨by simp [p2_provider_route, h1], ?_⟩
  intro h2
  constructor
  · simp [p4_provider_route, h1, h2]
  · simp [p4_selected_model, h2]

/-- Witness for C5 amended at the concrete unknown value "mistral". -/
theorem claim5_witness :
    p2_provider_route "mistral" = "openai" ∧ p4_provider_route "mistral" = "openai" :=
  ⟨(claim5_amended "mistral" (by decide)).1,
   ((claim5_amended "mistral" (by decide)).2 (by decide)).1⟩

/-- C2 counterexample: `save_data_safely` is a plain truncate-then-write
(`open(..., 'w')` followed by `json.dump`), so an interruption between the
truncation and the completed write leaves the file empty — neither the
prior content nor the new content; and on a failed save the runner makes
exactly ONE save call (no retry) before moving on. -/
theorem claim2_counterexample :
    [] ∈ save_file_states ['x'] ['y', 'z']
    ∧ ([] : List Char) ≠ ['x'] ∧ ([] : List Char) ≠ ['y', 'z']
    ∧ (p2_save_and_report false).save_calls = 1
    ∧ ¬(p2_save_and_report false).save_calls = 2 := by
  decide

/-- C2 amended: a save attempt passes through the truncated (empty) state
before reaching the complete new content, so it is NOT atomic — only a
completed save leaves a full content on disk; and on save failure the
runner performs no retry: it makes exactly one save call per applied
record, logs an error instead of the progress update, still counts the
record as processed, and continues the run with the other records. -/
theorem claim2_amended (prior new : List Char) (ok : Bool) :
    prior ∈ save_file_states prior new
    ∧ [] ∈ save_file_states prior new
    ∧ new ∈ save_file_states prior new
    ∧ (p2_save_and_report ok).save_calls = 1
    ∧ (p2_save_and_report ok).progress_logged = ok
    ∧ (p2_save_and_report ok).error_logged = !ok
    ∧ (p2_save_and_report ok).counted_processed = true
    ∧ (p2_save_and_report ok).run_continues = true := by
  refine ⟨List.mem_cons_self _ _, ?_, ?_, rfl, rfl, rfl, rfl, rfl⟩
  · apply List.mem_cons_of_mem
    refine List.mem_map.mpr ⟨0, ?_, by simp⟩
    simp
  · apply List.mem_cons_of_mem
    refine List.mem_map.mpr ⟨new.length, ?_, ?_⟩
    · simp
    · simp

/-- Witness for C2 amended at concrete contents. -/
theorem claim2_witness :
    ['y', 'z'] ∈ save_file_states ['x'] ['y', 'z']
    ∧ (p2_save_and_report true).save_calls = 1 :=
  ⟨(claim2_amended ['x'] ['y', 'z'] true).2.2.1,
   (claim2_amended ['x'] ['y', 'z'] true).2.2.2.1⟩

/-- Witness for C9 at a concrete two-record run: the code produced for the
first record is part of the vocabulary of the second record's prompt and
of the final accumulator. -/
theorem claim9_witness :
    "cA" ∈ (p2Run "f" 3
      (fun id _ => if id = "A" then Attempt.found (JVal.str "cA") else Attempt.found (JVal.str "cB"))
      [("A", [("b", JVal.str "t")]), ("B", [("b", JVal.str "u")])]).codes :=
  (claim9_vocab_monotone "f" 3
    (fun id _ => if id = "A" then Attempt.found (JVal.str "cA") else Attempt.found (JVal.str "cB"))
    [("A", [("b", JVal.str "t")]), ("B", [("b", JVal.str "u")])]).2
    ("B", ["cA"]) (by decide) "cA" (by decide)

/-- C7 counterexample: a case absent from the parsed response is NOT left
without a result — the bulk regeneration emits its existing codes as its
"updated" codes (here the response is empty, yet case "A" gets ["old"]). -/
theorem claim7_counterexample :
    regenerate_codes_batch [] [⟨"A", JVal.arr ["old"]⟩] = [("A", ["old"])]
    ∧ (regenerate_codes_batch [] [⟨"A", JVal.arr ["old"]⟩]).lookup "A" = some ["old"] := by
  decide

/-- C7 amended: every case of the batch appears in the output map; a case
whose id is a response key with a list value receives exactly the
response's codes filtered of blank entries (when anything survives the
filter); a case absent from the response (and not matched by the
substring heuristic over response keys) is assigned its existing codes —
never left without a result. -/
theorem claim7_amended (jsonRes : List (String × JVal)) (batch : List CaseInput) :
    (regenerate_codes_batch jsonRes batch).map Prod.fst = batch.map CaseInput.caseId
    ∧ (∀ c ∈ batch, ∀ l, jsonRes.lookup c.caseId = some (JVal.arr l) →
        l.filter (fun s => pyStrip s ≠ "") ≠ [] →
        extract_case_codes jsonRes c = l.filter (fun s => pyStrip s ≠ ""))
    ∧ (∀ c ∈ batch, jsonRes.lookup c.caseId = none → findFallback jsonRes c.caseId = none →
        ((coerce_list c.existingCodes).filter (fun s => pyStrip s ≠ "") = [] →
            extract_case_codes jsonRes c = as_list c.existingCodes)
        ∧ ((coerce_list c.existingCodes).filter (fun s => pyStrip s ≠ "") ≠ [] →
            extract_case_codes jsonRes c
              = (coerce_list c.existingCodes).filter (fun s => pyStrip s ≠ ""))) := by
  refine ⟨?_, ?_, ?_⟩
  · simp [regenerate_codes_batch, List.map_map]
  · intro c _ l hlk hne
    simp only [extract_case_codes, hlk, coerce_list]
    rw [if_neg hne]
  · intro c _ hnone hfb
    constructor
    · intro hempty
      simp only [extract_case_codes, hnone, hfb]
      rw [if_pos hempty]
    · intro hne
      simp only [extract_case_codes, hnone, hfb]
      rw [if_neg hne]

/-- Witness for C7 amended: a two-case batch whose response covers only
case "A" — both cases appear in the output, and "A" gets the filtered
response codes. -/
theorem claim7_witness :
    (regenerate_codes_batch [("A", JVal.arr ["n1", " "])]
        [⟨"A", JVal.arr ["old"]⟩, ⟨"B", JVal.arr ["oldB"]⟩]).map Prod.fst = ["A", "B"]
    ∧ extract_case_codes [("A", JVal.arr ["n1", " "])] ⟨"A", JVal.arr ["old"]⟩ = ["n1"] := by
  constructor
  · exact ((claim7_amended [("A", JVal.arr ["n1", " "])]
      [⟨"A", JVal.arr ["old"]⟩, ⟨"B", JVal.arr ["oldB"]⟩]).1).trans (by decide)
  · exact (((claim7_amended [("A", JVal.arr ["n1", " "])]
      [⟨"A", JVal.arr ["old"]⟩, ⟨"B", JVal.arr ["oldB"]⟩]).2.1 ⟨"A", JVal.arr ["old"]⟩
      (by decide) ["n1", " "] (by decide) (by decide))).trans (by decide)

theorem mem_stableInsert {α : Type} (le : α → α → Bool) (a y : α) :
    ∀ l : List α, y ∈ stableInsert le a l ↔ y = a ∨ y ∈ l := by
  intro l
  induction l with
  | nil => simp [stableInsert]
  | cons b t ih =>
    by_cases h : le b a
    · simp only [stableInsert, h, if_true, List.mem_cons, ih]
      tauto
    · simp only [stableInsert, h, Bool.false_eq_true, if_false, List.mem_cons]

theorem pairwise_stableInsert {α : Type} (le : α → α → Bool)
    (htot : ∀ x y, le x y = true ∨ le y x = true)
    (htr : ∀ x y z, le x y = true → le y z = true → le x z = true) (a : α) :
    ∀ l : List α, List.Pairwise (fun x y => le x y = true) l →
    List.Pairwise (fun x y => le x y = true) (stableInsert le a l) := by
  intro l
  induction l with
  | nil => intro _; simp [stableInsert]
  | cons b t ih =>
    intro hp
    rw [List.pairwise_cons] at hp
    by_cases h : le b a
    · simp only [stableInsert, h, if_true]
      rw [List.pairwise_cons]
      refine ⟨?_, ih hp.2⟩
      intro y hy
      rcases (mem_stableInsert le a y t).mp hy with rfl | hy2
      · exact h
      · exact hp.1 y hy2
    · simp only [stableInsert, h, Bool.false_eq_true, if_false]
      rw [List.pairwise_cons]
      have hab : le a b = true := by
        rcases htot a b with h1 | h1
        · exact h1
        · exact absurd h1 (by simp [h])
      refine ⟨?_, List.pairwise_cons.mpr ⟨hp.1, hp.2⟩⟩
      intro y hy
      rcases List.mem_cons.mp hy with rfl | hy2
      · exact hab
      · exact htr a b y hab (hp.1 y hy2)

theorem mem_pySort_aux {α : Type} (le : α → α → Bool) (y : α) :
    ∀ (l acc : List α), y ∈ l.foldl (fun acc a => stableInsert le a acc) acc
      ↔ y ∈ acc ∨ y ∈ l := by
  intro l
  induction l with
  | nil => intro acc; simp
  | cons b t ih =>
    intro acc
    simp only [List.foldl_cons, ih, mem_stableInsert, List.mem_cons]
    tauto

theorem mem_pySort {α : Type} (le : α → α → Bool) (y : α) (l : List α) :
    y ∈ pySort le l ↔ y ∈ l := by
  unfold pySort
  rw [mem_pySort_aux]
  simp

theorem pairwise_pySort {α : Type} (le : α → α → Bool)
    (htot : ∀ x y, le x y = true ∨ le y x = true)
    (htr : ∀ x y z, le x y = true → le y z = true → le x z = true) (l : List α) :
    List.Pairwise (fun x y => le x y = true) (pySort le l) := by
  unfold pySort
  suffices h : ∀ (l acc : List α), List.Pairwise (fun x y => le x y = true) acc →
      List.Pairwise (fun x y => le x y = true)
        (l.foldl (fun acc a => stableInsert le a acc) acc) by
    exact h l [] (by simp)
  intro l2
  induction l2 with
  | nil => intro acc h; exact h
  | cons b t ih =>
    intro acc h
    exact ih (stableInsert le b acc) (pairwise_stableInsert le htot htr b acc h)

theorem charListLe_total : ∀ a b : List Char, charListLe a b = true ∨ charListLe b a = true := by
  intro a
  induction a with
  | nil => intro b; left; simp [charListLe]
  | cons x xs ih =>
    intro b
    cases b with
    | nil => right; simp [charListLe]
    | cons y ys =>
      by_cases h1 : x < y
      · left; simp [charListLe, h1]
      · by_cases h2 : y < x
        · right; simp [charListLe, h2]
        · rcases ih ys with h | h
          · left; simp [charListLe, h1, h2, h]
          · right; simp [charListLe, h1, h2, h]

theorem charListLe_trans : ∀ a b c : List Char,
    charListLe a b = true → charListLe b c = true → charListLe a c = true := by
  intro a
  induction a with
  | nil => intro b c _ _; simp [charListLe]
  | cons x xs ih =>
    intro b c h1 h2
    cases b with
    | nil => simp [charListLe] at h1
    | cons y ys =>
      cases c with
      | nil => simp [charListLe] at h2
      | cons z zs =>
        simp only [charListLe] at h1 h2 ⊢
        by_cases hxy : x < y
        · by_cases hyz : y < z
          · simp [lt_trans hxy hyz]
          · by_cases hzy : z < y
            · simp [hyz, hzy] at h2
            · have heq : y = z := le_antisymm (not_lt.mp hzy) (not_lt.mp hyz)
              subst heq
              simp [hxy]
        · by_cases hyx : y < x
          · simp [hxy, hyx] at h1
          · have heq : x = y := le_antisymm (not_lt.mp hyx) (not_lt.mp hxy)
            subst heq
            simp only [hxy, if_false] at h1 ⊢
            by_cases hxz : x < z
            · simp [hxz]
            · by_cases hzx : z < x
              · simp [hxz, hzx] at h2
              · simp only [hxz, hzx, if_false, Bool.false_eq_true] at h1 h2 ⊢
                exact ih ys zs h1 h2

theorem pyStrLe_total (s t : String) : pyStrLe s t = true ∨ pyStrLe t s = true :=
  charListLe_total s.toList t.toList

theorem pyStrLe_trans (s t u : String) :
    pyStrLe s t = true → pyStrLe t u = true → pyStrLe s u = true :=
  charListLe_trans s.toList t.toList u.toList

theorem stableInsert_perm {α : Type} (le : α → α → Bool) (a : α) :
    ∀ l : List α, (stableInsert le a l).Perm (a :: l) := by
  intro l
  induction l with
  | nil => simp [stableInsert]
  | cons b t ih =>
    by_cases h : le b a
    · simp only [stableInsert, h, if_true]
      exact (ih.cons b).trans (List.Perm.swap a b t)
    · simp [stableInsert, h]

theorem pySort_perm_aux {α : Type} (le : α → α → Bool) :
    ∀ (l acc : List α), (l.foldl (fun acc a => stableInsert le a acc) acc).Perm (acc ++ l) := by
  intro l
  induction l with
  | nil => intro acc; simp
  | cons b t ih =>
    intro acc
    simp only [List.foldl_cons]
    refine (ih (stableInsert le b acc)).trans ?_
    refine (List.Perm.append_right t (stableInsert_perm le b acc)).trans ?_
    exact List.perm_middle.symm

theorem pySort_perm {α : Type} (le : α → α → Bool) (l : List α) :
    (pySort le l).Perm l := by
  unfold pySort
  simpa using pySort_perm_aux le l []

theorem mem_pyDedupAux (y : String) :
    ∀ (l seen : List String), y ∈ pyDedupAux l seen ↔ (y ∈ l ∧ y ∉ seen) := by
  intro l
  induction l with
  | nil => intro seen; simp [pyDedupAux]
  | cons x xs ih =>
    intro seen
    by_cases h : x ∈ seen
    · simp only [pyDedupAux, h, if_true, ih, List.mem_cons]
      constructor
      · rintro ⟨h1, h2⟩
        exact ⟨Or.inr h1, h2⟩
      · rintro ⟨h1, h2⟩
        rcases h1 with rfl | h1
        · exact absurd h h2
        · exact ⟨h1, h2⟩
    · simp only [pyDedupAux, h, if_false, List.mem_cons, ih]
      constructor
      · rintro (rfl | ⟨h1, h2⟩)
        · exact ⟨Or.inl rfl, h⟩
        · exact ⟨Or.inr h1, fun hc => h2 (Or.inr hc)⟩
      · rintro ⟨h1, h2⟩
        rcases h1 with rfl | h1
        · exact Or.inl rfl
        · by_cases hx : y = x
          · exact Or.inl hx
          · refine Or.inr ⟨h1, fun hc => ?_⟩
            rcases hc with hx2 | hx2
            · exact hx hx2
            · exact h2 hx2

theorem mem_pyDedup (y : String) (l : List String) : y ∈ pyDedup l ↔ y ∈ l := by
  unfold pyDedup
  rw [mem_pyDedupAux]
  simp

theorem nodup_pyDedupAux : ∀ (l seen : List String), (pyDedupAux l seen).Nodup := by
  intro l
  induction l with
  | nil => intro seen; simp [pyDedupAux]
  | cons x xs ih =>
    intro seen
    by_cases h : x ∈ seen
    · simpa [pyDedupAux, h] using ih seen
    · simp only [pyDedupAux, h, if_false, List.nodup_cons]
      refine ⟨fun hc => ?_, ih (x :: seen)⟩
      exact ((mem_pyDedupAux x xs (x :: seen)).mp hc).2 (List.mem_cons_self x seen)

theorem nodup_pyDedup (l : List String) : (pyDedup l).Nodup :=
  nodup_pyDedupAux l []

theorem counterPairs_snd {xs : List String} {p : String × Nat} (h : p ∈ counterPairs xs) :
    p.2 = xs.count p.1 := by
  obtain ⟨k, _, hkeq⟩ := List.mem_map.mp h
  rw [← hkeq]

theorem mem_counterPairs {y : String} {xs : List String} (h : y ∈ xs) :
    (y, xs.count y) ∈ counterPairs xs :=
  List.mem_map.mpr ⟨y, (mem_pyDedup y xs).mpr h, rfl⟩

/-- C3 counterexample: with vocabulary ["b", "a"] (equal frequencies) and
cap 1, `most_common` keeps "b" — the FIRST-encountered entry — although
"a" precedes it lexicographically, so ties are not broken
lexicographically as the claim states. -/
theorem claim3_counterexample :
    most_common ["b", "a"] 1 = [("b", 1)]
    ∧ ¬most_common ["b", "a"] 1 = [("a", 1)]
    ∧ pyStrLe "a" "b" = true ∧ ¬("a" : String) = "b"
    ∧ List.count "a" ["b", "a"] = List.count "b" ["b", "a"] := by
  decide

/-- C3 amended: the phase-2 (uncapped) rendering sorts the distinct
flattened codes lexicographically (Python string order), so it is
deterministic and duplicate-free; the phase-3 capped selection keeps
entries of maximal frequency — every kept entry's count is at least every
dropped entry's count — and respects the cap, but ties are kept in
first-encounter order (see the counterexample) and the emitted bullet
order follows Python set iteration rather than any sort. -/
theorem claim3_amended :
    (∀ codes : List JVal,
        List.Pairwise (fun a b => pyStrLe a b = true) (p2_sorted_unique codes)
        ∧ (p2_sorted_unique codes).Nodup
        ∧ (∀ s, s ∈ p2_sorted_unique codes ↔ s ∈ codes.flatMap flatten_codes))
    ∧ (∀ (xs : List String) (n : Nat) (x y : String),
        x ∈ p3_top_themes xs n → y ∈ xs → y ∉ p3_top_themes xs n →
        xs.count y ≤ xs.count x)
    ∧ (∀ (xs : List String) (n : Nat), (p3_top_themes xs n).length ≤ n) := by
  refine ⟨?_, ?_, ?_⟩
  · intro codes
    refine ⟨pairwise_pySort pyStrLe pyStrLe_total pyStrLe_trans _, ?_, ?_⟩
    · exact ((pySort_perm pyStrLe _).nodup_iff).mpr (nodup_pyDedup _)
    · intro s
      unfold p2_sorted_unique
      rw [mem_pySort, mem_pyDedup]
  · intro xs n x y hx hy hny
    unfold p3_top_themes most_common at hx hny
    obtain ⟨px, hpx_take, hpx1⟩ := List.mem_map.mp hx
    have hpxS : px ∈ pySort (fun a b : String × Nat => decide (b.2 ≤ a.2)) (counterPairs xs) :=
      List.mem_of_mem_take hpx_take
    have hpyS : (y, xs.count y) ∈ pySort (fun a b : String × Nat => decide (b.2 ≤ a.2)) (counterPairs xs) :=
      (mem_pySort _ _ _).mpr (mem_counterPairs hy)
    have hsplit : (y, xs.count y)
        ∈ (pySort (fun a b : String × Nat => decide (b.2 ≤ a.2)) (counterPairs xs)).take n
          ++ (pySort (fun a b : String × Nat => decide (b.2 ≤ a.2)) (counterPairs xs)).drop n := by
      rw [List.take_append_drop]
      exact hpyS
    have hpy_drop : (y, xs.count y)
        ∈ (pySort (fun a b : String × Nat => decide (b.2 ≤ a.2)) (counterPairs xs)).drop n := by
      rcases List.mem_append.mp hsplit with h1 | h1
      · exact absurd (List.mem_map.mpr ⟨(y, xs.count y), h1, rfl⟩) hny
      · exact h1
    have hpw := pairwise_pySort (fun a b : String × Nat => decide (b.2 ≤ a.2))
      (fun a b => by rcases Nat.le_total b.2 a.2 with h | h <;> simp [h])
      (fun a b c h1 h2 => by
        simp only [decide_eq_true_eq] at h1 h2 ⊢
        exact le_trans h2 h1)
      (counterPairs xs)
    rw [← List.take_append_drop n
      (pySort (fun a b : String × Nat => decide (b.2 ≤ a.2)) (counterPairs xs))] at hpw
    have hrel := (List.pairwise_append.mp hpw).2.2 px hpx_take (y, xs.count y) hpy_drop
    simp only [decide_eq_true_eq] at hrel
    have hcp : px ∈ counterPairs xs := (mem_pySort _ _ _).mp hpxS
    have hsnd := counterPairs_snd hcp
    rw [hsnd, hpx1] at hrel
    exact hrel
  · intro xs n
    unfold p3_top_themes most_common
    simp [List.length_take]

/-- Witness for C3 amended: the sorted unique rendering of a concrete
vocabulary contains "a"; the cap retains the highest-frequency entry on a
concrete frequency profile; the cap bound holds on a concrete list. -/
theorem claim3_witness :
    ("a" ∈ p2_sorted_unique [JVal.str "b", JVal.arr ["a", "b"]])
    ∧ List.count "a" ["b", "a", "b"] ≤ List.count "b" ["b", "a", "b"]
    ∧ (p3_top_themes ["b", "a"] 1).length ≤ 1 := by
  refine ⟨?_, ?_, ?_⟩
  · exact ((claim3_amended.1 [JVal.str "b", JVal.arr ["a", "b"]]).2.2 "a").mpr (by decide)
  · exact claim3_amended.2.1 ["b", "a", "b"] 1 "b" "a" (by decide) (by decide) (by decide)
  · exact claim3_amended.2.2 ["b", "a"] 1

theorem isPrefixOf_append_self : ∀ l r : List Char, l.isPrefixOf (l ++ r) = true := by
  intro l
  induction l with
  | nil => intro r; simp [List.isPrefixOf]
  | cons a as ih =>
    intro r
    simp only [List.cons_append, List.isPrefixOf, Bool.and_eq_true, beq_self_eq_true, true_and]
    exact ih r

theorem isPrefixOf_append_cancel : ∀ l a b : List Char,
    (l ++ a).isPrefixOf (l ++ b) = a.isPrefixOf b := by
  intro l
  induction l with
  | nil => intro a b; simp
  | cons x xs ih =>
    intro a b
    simp only [List.cons_append, List.isPrefixOf, beq_self_eq_true, Bool.true_and]
    exact ih a b

theorem isPrefixOf_of_append_isPrefixOf : ∀ a b l : List Char,
    (a ++ b).isPrefixOf l = true → a.isPrefixOf l = true := by
  intro a
  induction a with
  | nil => intro b l _; simp [List.isPrefixOf]
  | cons x xs ih =>
    intro b l h
    cases l with
    | nil => simp [List.isPrefixOf] at h
    | cons y ys =>
      simp only [List.cons_append, List.isPrefixOf, Bool.and_eq_true] at h ⊢
      exact ⟨h.1, ih b ys h.2⟩

theorem hasSub_of_isPrefixOf (sep hay : List Char) (h : sep.isPrefixOf hay = true)
    (hne : hay ≠ []) : hasSub sep hay = true := by
  cases hay with
  | nil => exact absurd rfl hne
  | cons c rest => simp [hasSub, h]

theorem hasSub_fence_append : ∀ x y : List Char, hasSub fence (x ++ (fence ++ y)) = true := by
  intro x
  induction x with
  | nil =>
    intro y
    simp only [List.nil_append]
    exact hasSub_of_isPrefixOf fence (fence ++ y) (isPrefixOf_append_self fence y) (by simp [fence])
  | cons c x' ih =>
    intro y
    simp only [List.cons_append, hasSub, List.append_eq]
    rw [ih y]
    simp

theorem afterFirst_append (sep r : List Char) (hsep : sep ≠ []) :
    afterFirst sep (sep ++ r) = r := by
  cases sep with
  | nil => exact absurd rfl hsep
  | cons a as =>
    simp only [List.cons_append, afterFirst, List.append_eq]
    rw [show (a :: (as ++ r) : List Char) = (a :: as) ++ r from rfl,
      isPrefixOf_append_self (a :: as) r]
    simp only [if_true]
    rw [show (a :: as) ++ r = (a :: as) ++ r from rfl]
    exact List.drop_left (a :: as) r

theorem beforeFirst_fence : ∀ l : List Char, hasSub fence l = false →
    l.getLast? ≠ some bq → beforeFirst fence (l ++ fence) = l := by
  intro l
  induction l with
  | nil =>
    intro _ _
    simp only [List.nil_append]
    decide
  | cons c l' ih =>
    intro h hlast
    have h2 : (fence.isPrefixOf (c :: l') || hasSub fence l') = false := h
    obtain ⟨hpre, hsub'⟩ := Bool.or_eq_false_iff.mp h2
    have hnotpre : fence.isPrefixOf (c :: (l' ++ fence)) = false := by
      cases l' with
      | nil =>
        have hc : c ≠ bq := by
          intro hc
          exact hlast (by simp [hc])
        have hbc : (bq == c) = false := beq_eq_false_iff_ne.mpr (Ne.symm hc)
        simp [fence, List.isPrefixOf, hbc]
      | cons d l'' =>
        cases hA : (bq == c) with
        | false => simp [fence, List.isPrefixOf, hA]
        | true =>
          cases hB : (bq == d) with
          | false => simp [fence, List.isPrefixOf, hA, hB]
          | true =>
            simp only [fence, List.isPrefixOf, hA, hB, Bool.true_and, List.cons_append,
              List.append_eq] at hpre ⊢
            cases l'' with
            | nil =>
              exfalso
              apply hlast
              simp [eq_of_beq hB]
            | cons e l₃ =>
              simp only [List.isPrefixOf, Bool.and_eq_false_iff] at hpre
              simp only [List.cons_append, List.isPrefixOf, List.append_eq]
              rcases hpre with hE | hF
              · simp [hE]
              · simp at hF
    simp only [List.cons_append, beforeFirst, hnotpre, Bool.false_eq_true, if_false,
      List.append_eq]
    have hlast' : l'.getLast? ≠ some bq := by
      cases l' with
      | nil => simp
      | cons d l'' =>
        intro hc
        apply hlast
        rw [List.getLast?_cons_cons]
        exact hc
    rw [ih hsub' hlast']

theorem isPrefixOf_fence_concat (s : List Char) (c0 : Char) (hc : (bq == c0) = false)
    (h : fence.isPrefixOf s = false) : fence.isPrefixOf (s ++ [c0]) = false := by
  match s with
  | [] => simp [fence, List.isPrefixOf, hc]
  | [a] =>
    cases hA : (bq == a) with
    | false => simp [fence, List.isPrefixOf, hA]
    | true => simp [fence, List.isPrefixOf, hA, hc]
  | [a, b] =>
    cases hA : (bq == a) with
    | false => simp [fence, List.isPrefixOf, hA]
    | true =>
      cases hB : (bq == b) with
      | false => simp [fence, List.isPrefixOf, hA, hB]
      | true => simp [fence, List.isPrefixOf, hA, hB, hc]
  | a :: b :: c :: t =>
    simp only [fence, List.isPrefixOf, List.cons_append, List.append_eq] at h ⊢
    exact h

theorem hasSub_fence_concat : ∀ (p : List Char) (c0 : Char), (bq == c0) = false →
    hasSub fence p = false → hasSub fence (p ++ [c0]) = false := by
  intro p
  induction p with
  | nil =>
    intro c0 hc _
    simp [hasSub, fence, List.isPrefixOf, hc]
  | cons c p' ih =>
    intro c0 hc h
    have h2 : (fence.isPrefixOf (c :: p') || hasSub fence p') = false := h
    obtain ⟨hpre, hsub'⟩ := Bool.or_eq_false_iff.mp h2
    have hgoal : (fence.isPrefixOf ((c :: p') ++ [c0]) || hasSub fence (p' ++ [c0])) = false := by
      rw [isPrefixOf_fence_concat (c :: p') c0 hc hpre, ih c0 hc hsub']
      rfl
    exact hgoal

theorem hasSub_fence_cons (c0 : Char) (hc0 : (bq == c0) = false) (p : List Char)
    (h : hasSub fence p = false) : hasSub fence (c0 :: p) = false := by
  have : (fence.isPrefixOf (c0 :: p) || hasSub fence p) = false := by
    rw [h, show fence.isPrefixOf (c0 :: p) = false from by simp [fence, List.isPrefixOf, hc0]]
    rfl
  exact this

theorem length_dropWhile_le_chars : ∀ l : List Char,
    (l.dropWhile Char.isWhitespace).length ≤ l.length := by
  intro l
  induction l with
  | nil => simp
  | cons a t ih =>
    rw [List.dropWhile_cons]
    split
    · exact le_trans ih (by simp)
    · simp

theorem head_not_ws (l : List Char) (hl : l.dropWhile Char.isWhitespace = l) (hne : l ≠ []) :
    ∃ a t, l = a :: t ∧ Char.isWhitespace a = false := by
  cases l with
  | nil => exact absurd rfl hne
  | cons a t =>
    refine ⟨a, t, rfl, ?_⟩
    cases hwa : Char.isWhitespace a with
    | false => rfl
    | true =>
      exfalso
      rw [List.dropWhile_cons, if_pos (by simp [hwa])] at hl
      have hlen := congrArg List.length hl
      have := length_dropWhile_le_chars t
      simp at hlen
      omega

theorem trimChars_wrap (a b : Char) (xs : List Char) (ha : Char.isWhitespace a = false)
    (hb : Char.isWhitespace b = false) : trimChars (a :: (xs ++ [b])) = a :: (xs ++ [b]) := by
  unfold trimChars
  rw [List.dropWhile_cons, if_neg (by simp [ha])]
  rw [show (a :: (xs ++ [b])).reverse = b :: (xs.reverse ++ [a]) from by simp]
  rw [List.dropWhile_cons, if_neg (by simp [hb])]
  simp

theorem trimChars_nl_wrap (p : List Char)
    (h2 : p.dropWhile Char.isWhitespace = p)
    (h3 : p.reverse.dropWhile Char.isWhitespace = p.reverse)
    (h4 : p ≠ []) :
    trimChars (('\n') :: (p ++ ['\n'])) = p := by
  obtain ⟨a, t, hpe, hna⟩ := head_not_ws p h2 h4
  have hrev : p.reverse ≠ [] := by simp [h4]
  obtain ⟨b, u, hqe, hnb⟩ := head_not_ws p.reverse h3 hrev
  unfold trimChars
  rw [List.dropWhile_cons, if_pos (by decide)]
  rw [show (p ++ ['\n']).dropWhile Char.isWhitespace = p ++ ['\n'] from by
    rw [hpe]
    rw [List.cons_append, List.dropWhile_cons, if_neg (by simp [hna])]]
  rw [show (p ++ ['\n']).reverse = ('\n') :: p.reverse from by simp]
  rw [List.dropWhile_cons, if_pos (by decide)]
  rw [h3, List.reverse_reverse]

theorem response_body_eq (content : List Char) :
    response_body content =
      if fenceJson.isPrefixOf (trimChars content) && hasSub fence ((trimChars content).drop 6) then
        trimChars (beforeFirst fence (afterFirst fenceJson (trimChars content)))
      else if fence.isPrefixOf (trimChars content) && hasSub fence ((trimChars content).drop 3) then
        trimChars (beforeFirst fence (afterFirst fence (trimChars content)))
      else trimChars content := rfl

/-- C8 amended: for a payload that does not itself contain the three-
backquote marker (and has no leading/trailing whitespace), wrapping in a
```json fence, wrapping in a plain ``` fence, or leaving it unfenced all
make the response parser decode exactly the payload text, hence the three
renderings yield the same parsed map.  (The counterexample shows this
fails for payloads containing the marker.) -/
theorem claim8_amended (p : List Char)
    (h1 : hasSub fence p = false)
    (h2 : p.dropWhile Char.isWhitespace = p)
    (h3 : p.reverse.dropWhile Char.isWhitespace = p.reverse)
    (h4 : p ≠ []) :
    response_body (fenceJson ++ '\n' :: (p ++ '\n' :: fence)) = p
    ∧ response_body (fence ++ '\n' :: (p ++ '\n' :: fence)) = p
    ∧ response_body p = p
    ∧ response_to_json_model (fenceJson ++ '\n' :: (p ++ '\n' :: fence))
        = response_to_json_model p
    ∧ response_to_json_model (fence ++ '\n' :: (p ++ '\n' :: fence))
        = response_to_json_model p := by
  -- shared pieces about the inner body
  have hsubin : hasSub fence (('\n' :: p) ++ ['\n']) = false := by
    rw [List.cons_append]
    exact hasSub_fence_cons '\n' (by decide) (p ++ ['\n']) (hasSub_fence_concat p '\n' (by decide) h1)
  have hlastin : (('\n' :: p) ++ ['\n']).getLast? ≠ some bq := by
    rw [List.getLast?_concat]
    intro hc
    have : '\n' = bq := Option.some.inj hc
    exact absurd this (by decide)
  have hbefore : beforeFirst fence ((('\n' :: p) ++ ['\n']) ++ fence) = ('\n' :: p) ++ ['\n'] :=
    beforeFirst_fence (('\n' :: p) ++ ['\n']) hsubin hlastin
  have hshapeR : ('\n' :: (p ++ '\n' :: fence)) = (('\n' :: p) ++ ['\n']) ++ fence := by
    simp
  have htrimin : trimChars (('\n' :: p) ++ ['\n']) = p := by
    rw [List.cons_append]
    exact trimChars_nl_wrap p h2 h3 h4
  have hbodyin : trimChars (beforeFirst fence ('\n' :: (p ++ '\n' :: fence))) = p := by
    rw [hshapeR, hbefore, htrimin]
  -- the json-fenced wrapping
  have hW1trim : trimChars (fenceJson ++ '\n' :: (p ++ '\n' :: fence))
      = fenceJson ++ '\n' :: (p ++ '\n' :: fence) := by
    have hshape : (fenceJson ++ '\n' :: (p ++ '\n' :: fence))
        = bq :: ((([bq, bq, 'j', 's', 'o', 'n', '\n'] ++ p) ++ ['\n', bq, bq]) ++ [bq]) := by
      simp [fenceJson, fence]
    rw [hshape, trimChars_wrap bq bq _ (by decide) (by decide)]
  have hA1 : fenceJson.isPrefixOf (fenceJson ++ '\n' :: (p ++ '\n' :: fence)) = true :=
    isPrefixOf_append_self fenceJson _
  have hB1 : hasSub fence ((fenceJson ++ '\n' :: (p ++ '\n' :: fence)).drop 6) = true := by
    have hshape : (fenceJson ++ '\n' :: (p ++ '\n' :: fence))
        = [bq, bq, bq, 'j', 's', 'o'] ++ ('n' :: '\n' :: (p ++ '\n' :: fence)) := by
      simp [fenceJson, fence]
    rw [hshape]
    rw [show (6 : Nat) = ([bq, bq, bq, 'j', 's', 'o'] : List Char).length from rfl]
    rw [List.drop_left]
    have hshape2 : ('n' :: '\n' :: (p ++ '\n' :: fence))
        = ((['n', '\n'] ++ p) ++ ['\n']) ++ (fence ++ []) := by
      simp
    rw [hshape2]
    exact hasSub_fence_append _ _
  have hd1 : afterFirst fenceJson (fenceJson ++ '\n' :: (p ++ '\n' :: fence))
      = '\n' :: (p ++ '\n' :: fence) :=
    afterFirst_append fenceJson _ (by simp [fenceJson, fence])
  have hres1 : response_body (fenceJson ++ '\n' :: (p ++ '\n' :: fence)) = p := by
    rw [response_body_eq, hW1trim, hA1, hB1]
    simp only [Bool.and_self, if_true]
    rw [hd1]
    exact hbodyin
  -- the plain-fenced wrapping
  have hW2trim : trimChars (fence ++ '\n' :: (p ++ '\n' :: fence))
      = fence ++ '\n' :: (p ++ '\n' :: fence) := by
    have hshape : (fence ++ '\n' :: (p ++ '\n' :: fence))
        = bq :: ((([bq, bq, '\n'] ++ p) ++ ['\n', bq, bq]) ++ [bq]) := by
      simp [fence]
    rw [hshape, trimChars_wrap bq bq _ (by decide) (by decide)]
  have hA2 : fenceJson.isPrefixOf (fence ++ '\n' :: (p ++ '\n' :: fence)) = false := by
    have : fenceJson.isPrefixOf (fence ++ '\n' :: (p ++ '\n' :: fence))
        = (['j', 's', 'o', 'n'] : List Char).isPrefixOf ('\n' :: (p ++ '\n' :: fence)) := by
      rw [show fenceJson = fence ++ ['j', 's', 'o', 'n'] from rfl]
      exact isPrefixOf_append_cancel fence _ _
    rw [this]
    simp [List.isPrefixOf]
  have hP2 : fence.isPrefixOf (fence ++ '\n' :: (p ++ '\n' :: fence)) = true :=
    isPrefixOf_append_self fence _
  have hB2 : hasSub fence ((fence ++ '\n' :: (p ++ '\n' :: fence)).drop 3) = true := by
    rw [show (3 : Nat) = (fence : List Char).length from rfl]
    rw [List.drop_left]
    have hshape2 : ('\n' :: (p ++ '\n' :: fence))
        = ((['\n'] ++ p) ++ ['\n']) ++ (fence ++ []) := by
      simp
    rw [hshape2]
    exact hasSub_fence_append _ _
  have hd2 : afterFirst fence (fence ++ '\n' :: (p ++ '\n' :: fence))
      = '\n' :: (p ++ '\n' :: fence) :=
    afterFirst_append fence _ (by simp [fence])
  have hres2 : response_body (fence ++ '\n' :: (p ++ '\n' :: fence)) = p := by
    rw [response_body_eq, hW2trim, hA2, hP2, hB2]
    simp only [Bool.false_and, Bool.and_self, if_true, Bool.false_eq_true, if_false]
    rw [hd2]
    exact hbodyin
  -- unfenced
  have htrimp : trimChars p = p := by
    unfold trimChars
    rw [h2, h3, List.reverse_reverse]
  have hpf : fence.isPrefixOf p = false := by
    cases hp : p with
    | nil => exact absurd hp h4
    | cons c rest =>
      have := h1
      rw [hp] at this
      exact (Bool.or_eq_false_iff.mp this).1
  have hpfj : fenceJson.isPrefixOf p = false := by
    cases hfp : fenceJson.isPrefixOf p with
    | false => rfl
    | true =>
      exfalso
      have := isPrefixOf_of_append_isPrefixOf fence ['j', 's', 'o', 'n'] p
        (by rw [show fence ++ ['j', 's', 'o', 'n'] = fenceJson from rfl]; exact hfp)
      rw [hpf] at this
      cases this
  have hres3 : response_body p = p := by
    rw [response_body_eq, htrimp, hpfj, hpf]
    simp
  refine ⟨hres1, hres2, hres3, ?_, ?_⟩
  · unfold response_to_json_model
    rw [hres1, hres3]
  · unfold response_to_json_model
    rw [hres2, hres3]

/-- C8 counterexample: the JSON-decodable payload `{"a": "x```y"}` (a
backquote marker inside a string literal) parses to a one-entry map when
unfenced, but wrapped in a ```json fence the extraction truncates at the
inner marker and parsing falls back to the empty map — the claim's
equivalence fails. -/
theorem claim8_counterexample :
    json_loads ("\x7b\"a\": \"x```y\"\x7d").toList
        = some [("a", JVal.str "x```y")]
    ∧ response_to_json_model ("\x7b\"a\": \"x```y\"\x7d").toList
        = [("a", JVal.str "x```y")]
    ∧ response_to_json_model ("```json\n\x7b\"a\": \"x```y\"\x7d\n```").toList = []
    ∧ ¬([] : List (String × JVal)) = [("a", JVal.str "x```y")] := by
  refine ⟨by decide, by decide, by decide, by decide⟩

/-- Witness for C8 amended at the concrete payload `{"a": "v"}`: the three
renderings all decode to the same map. -/
theorem claim8_witness :
    response_to_json_model (fenceJson ++ '\n' :: (("\x7b\"a\": \"v\"\x7d").toList ++ '\n' :: fence))
        = response_to_json_model ("\x7b\"a\": \"v\"\x7d").toList
    ∧ response_to_json_model (fence ++ '\n' :: (("\x7b\"a\": \"v\"\x7d").toList ++ '\n' :: fence))
        = response_to_json_model ("\x7b\"a\": \"v\"\x7d").toList
    ∧ response_body ("\x7b\"a\": \"v\"\x7d").toList = ("\x7b\"a\": \"v\"\x7d").toList :=
  ⟨(claim8_amended ("\x7b\"a\": \"v\"\x7d").toList (by decide) (by decide) (by decide)
      (by decide)).2.2.2.1,
   (claim8_amended ("\x7b\"a\": \"v\"\x7d").toList (by decide) (by decide) (by decide)
      (by decide)).2.2.2.2,
   (claim8_amended ("\x7b\"a\": \"v\"\x7d").toList (by decide) (by decide) (by decide)
      (by decide)).2.2.1⟩
